import Mathlib

/-!
Verification of the slist intrusive singly-linked-list library (src/list.h).

A chain of linked element records is modelled as a Lean `List α`: the head of
the list is the element referenced by the list handle, and each tail is the
chain reachable through the embedded `_list_nxt` links, ending in the NULL
sentinel (the empty list).  Every operation of the library only rewrites link
fields, so its effect on the abstract chain is a pure function on `List α`;
each definition below mirrors the control flow of the corresponding macro.
Cleanup callbacks are modelled by additionally returning the list of elements
the operation hands to the callback, in invocation order.  Code paths that
dereference a NULL pointer (undefined behaviour in the C source) are modelled
by an `Option` result, with `none` marking the NULL dereference.

For one claim about the link field of a removed element, `LIST_POP` and
`LIST_REMOVE` are additionally modelled at the level of the link heap itself:
nodes are addressed by `Nat` identifiers and the link fields form a map
`Nat → Option Nat`.
-/

namespace Slist

variable {α : Type}

/-- Contract of a comparator, as documented for `LIST_SORT` (src/list.h):
`cmp a b` is negative if `a` strictly precedes `b`, zero if the two are
equivalent for ordering purposes, positive otherwise, and the induced relation
`a ≼ b ↔ cmp a b ≤ 0` is a total preorder.  `flip` expresses antisymmetry of
the sign (which also makes `≼` total), `le_trans` transitivity of `≼`. -/
structure CmpContract (cmp : α → α → Int) : Prop where
  flip : ∀ a b, cmp a b < 0 ↔ 0 < cmp b a
  le_trans : ∀ a b c, cmp a b ≤ 0 → cmp b c ≤ 0 → cmp a c ≤ 0

/-- Chain is non-decreasing under `cmp`: every adjacent pair `(a, b)` has
`cmp a b ≤ 0`. -/
def sortedB (cmp : α → α → Int) : List α → Bool
  | [] => true
  | [_] => true
  | a :: b :: t => (decide (cmp a b ≤ 0)) && sortedB cmp (b :: t)

/-- Chain is strictly increasing under `cmp`: every adjacent pair `(a, b)` has
`cmp a b < 0`. -/
def strictSortedB (cmp : α → α → Int) : List α → Bool
  | [] => true
  | [_] => true
  | a :: b :: t => (decide (cmp a b < 0)) && strictSortedB cmp (b :: t)

/-- Embedding of the inner merge loop of `LIST_SORT` (src/list.h lines
345-365).  The first argument is the left run (the `_list_ls` elements
starting at `_list_l`), the `Nat` argument is the remaining right-run budget
`_list_rs`, and the last argument is the chain starting at `_list_r` (which
runs on past the right run; the budget limits how much of it is consumed).
Returns the merged output emitted through `_list_t` and the remaining chain at
the final position of `_list_r`.  The loop runs while
`ls > 0 || (rs > 0 && r != NULL)`; when `ls == 0` it emits from the right,
when `rs == 0 || r == NULL` it emits from the left, and otherwise it emits the
left element exactly when `func(l, r) < 0`. -/
def mergeStep (cmp : α → α → Int) : List α → Nat → List α → List α × List α
  | [], rs + 1, b :: rt =>
      let p := mergeStep cmp [] rs rt
      (b :: p.1, p.2)
  | [], _ + 1, [] => ([], [])
  | [], 0, r => ([], r)
  | a :: lt, rs + 1, b :: rt =>
      if cmp a b < 0 then
        let p := mergeStep cmp lt (rs + 1) (b :: rt)
        (a :: p.1, p.2)
      else
        let p := mergeStep cmp (a :: lt) rs rt
        (b :: p.1, p.2)
  | a :: lt, rs, r =>
      let p := mergeStep cmp lt rs r
      (a :: p.1, p.2)
termination_by l rs _ => (l.length, rs)

/-- Plain two-list merge with the tie-break of `LIST_SORT`: the left element
is taken only when `cmp` is strictly negative.  `mergeStep cmp l rs r`
computes `mergeC cmp l (r.take rs)` followed by the remainder `r.drop rs`
(theorem `mergeStep_eq`). -/
def mergeC (cmp : α → α → Int) : List α → List α → List α
  | [], r => r
  | a :: lt, [] => a :: lt
  | a :: lt, b :: rt =>
      if cmp a b < 0 then a :: mergeC cmp lt (b :: rt)
      else b :: mergeC cmp (a :: lt) rt
termination_by l r => l.length + r.length

/-- Invariant of the bottom-up merge sort: every consecutive block of `g`
elements of the chain is non-decreasing under `cmp`.  (For `g ≥ 1` and a chain
`a :: t`, the tail blocks start at `t.drop (g-1) = (a :: t).drop g`.) -/
def runsSorted (cmp : α → α → Int) (g : Nat) : List α → Prop
  | [] => True
  | a :: t => sortedB cmp ((a :: t).take g) = true ∧ runsSorted cmp g (t.drop (g - 1))
termination_by l => l.length
decreasing_by
  simp
  omega

/-- Embedding of the scanning loop of `LIST_MAX` (src/list.h lines 501-514):
`out` is the running best, and for each visited element `e` the test
`func(out, e) < 1` decides whether `out` is replaced by `e`. -/
def maxLoop (cmp : α → α → Int) (out : α) : List α → α
  | [] => out
  | e :: t => maxLoop cmp (if cmp out e < 1 then e else out) t

/-- Embedding of the scanning loop of `LIST_MIN` (src/list.h lines 524-537):
the test is `func(out, e) > -1`. -/
def minLoop (cmp : α → α → Int) (out : α) : List α → α
  | [] => out
  | e :: t => minLoop cmp (if cmp out e > -1 then e else out) t

/-- Embedding of `LIST_MAX` (src/list.h lines 501-514): NULL (`none`) on an
empty chain, otherwise the scan starts with both `*out` and `_list_e` at the
first element and visits every element of the chain. -/
def LIST_MAX (cmp : α → α → Int) (l : List α) : Option α :=
  match l with
  | [] => none
  | a :: _ => some (maxLoop cmp a l)

/-- Embedding of `LIST_MIN` (src/list.h lines 524-537). -/
def LIST_MIN (cmp : α → α → Int) (l : List α) : Option α :=
  match l with
  | [] => none
  | a :: _ => some (minLoop cmp a l)

/-- Embedding of the inner loop of `LIST_UNIQUE` (src/list.h lines 387-392)
with the outer reference element `f` fixed.  The argument is the chain hanging
off the scan pointer `_list_g` (i.e. starting at `_LIST_NXT(_list_g)`).  When
`func(f, nxt g) == 0` the successor is unlinked by `LIST_REMOVE(g)`, and then
`_list_g = _LIST_NXT(_list_g)` advances to the element after the removed one;
if the removed element was the last, `_list_g` becomes NULL and the loop
condition `_LIST_NXT(_list_g) != NULL` dereferences NULL, modelled by `none`.
Returns the resulting chain after `g` and the elements handed to the cleanup
callback, in order. -/
def uniqueInner (cmp : α → α → Int) (f : α) : List α → Option (List α × List α)
  | [] => some ([], [])
  | b :: t =>
    if cmp f b = 0 then
      match t with
      | [] => none
      | c :: u =>
        match uniqueInner cmp f u with
        | none => none
        | some (s, rem) => some (c :: s, b :: rem)
    else
      match uniqueInner cmp f t with
      | none => none
      | some (s, rem) => some (b :: s, rem)

/-- Embedding of `LIST_TAKE` (src/list.h lines 439-449).  The `Int` counter
`_list_i` starts at 1 and the scan advances `_list_f` while
`f != NULL && i < n`; the second loop then unlinks (and hands to cleanup, in
order) everything after the final `_list_f`.  If the scan ends with
`_list_f == NULL` (empty chain, or `n` exceeding the length), the second
loop's condition dereferences NULL, modelled by `none`.  Returns the kept
chain and the removed elements. -/
def takeGo (n : Int) (i : Int) : List α → Option (List α × List α)
  | [] => none
  | a :: t =>
    if i < n then
      match takeGo n (i + 1) t with
      | none => none
      | some (k, r) => some (a :: k, r)
    else
      some ([a], t)

/-- Embedding of `LIST_TAKE`: see `takeGo`. -/
def LIST_TAKE (n : Int) (l : List α) : Option (List α × List α) :=
  takeGo n 1 l

/-- Embedding of `LIST_FIRST` (src/list.h lines 91-94). -/
def LIST_FIRST : List α → Option α
  | [] => none
  | a :: _ => some a

/-- Embedding of `LIST_LAST` (src/list.h lines 102-112): NULL on an empty
chain, otherwise the element whose link is the NULL sentinel. -/
def LIST_LAST : List α → Option α
  | [] => none
  | [a] => some a
  | _ :: b :: t => LIST_LAST (b :: t)

/-- Embedding of `LIST_FIND` (src/list.h lines 233-244): first element
satisfying the predicate, scanning in list order and short-circuiting. -/
def LIST_FIND (p : α → Bool) : List α → Option α
  | [] => none
  | a :: t => if p a then some a else LIST_FIND p t

/-- Embedding of `LIST_POP` (src/list.h lines 274-282): removes the head
element if there is one, handing it to the cleanup callback.  Returns the new
chain and the cleanup invocations, in order. -/
def LIST_POP : List α → List α × List α
  | [] => ([], [])
  | a :: t => (t, [a])

/-- Embedding of the loop of `LIST_DROP` (src/list.h lines 421-430) with the
remaining iteration count as fuel: each iteration pops the head and then
breaks if the chain became (or already was) empty. -/
def dropGo : Nat → List α → List α × List α
  | 0, l => (l, [])
  | _ + 1, [] => ([], [])
  | k + 1, a :: t =>
    match t with
    | [] => ([], [a])
    | _ :: _ =>
      let p := dropGo k t
      (p.1, a :: p.2)

/-- Embedding of `LIST_DROP` (src/list.h lines 421-430): the `for` loop runs
`_list_i` from 0 while `_list_i < (intmax_t)(n)`, i.e. `max n 0 = n.toNat`
times. -/
def LIST_DROP (n : Int) (l : List α) : List α × List α :=
  dropGo n.toNat l

/-- Helper mirroring the tail-linking of `LIST_APPEND` (src/list.h lines
603-613): `LIST_LAST` walks to the last element of the first chain; if the
chain is empty the head is pointed at `g`, otherwise the last element's link
is pointed at `g`. -/
def linkAfterLast (g : List α) : List α → List α
  | [] => g
  | [a] => a :: g
  | a :: b :: t => a :: linkAfterLast g (b :: t)

/-- Embedding of `LIST_APPEND` (src/list.h lines 603-613): the second chain is
detached from its list and linked after the last element of the first chain.
Returns the two resulting chains. -/
def LIST_APPEND (l1 l2 : List α) : List α × List α :=
  (linkAfterLast l2 l1, [])

/-- Link-heap model of `LIST_POP` (src/list.h lines 274-282): nodes are `Nat`
identifiers and `nxt` is the map of `_list_nxt` link fields.  `fst` is the
list's head reference.  Returns the new head, the new link map, and the
element handed to the cleanup callback (if any).  The code only reassigns
`_LIST_FST(list)`; no link field is written. -/
def LIST_POP_links (fst : Option Nat) (nxt : Nat → Option Nat) :
    Option Nat × (Nat → Option Nat) × Option Nat :=
  match fst with
  | none => (none, nxt, none)
  | some e => (nxt e, nxt, some e)

/-- Link-heap model of `LIST_REMOVE` (src/list.h lines 290-298): unlinks the
successor `_list_e` of `elem` by writing `elem`'s link field only, then hands
`_list_e` to the cleanup callback.  Returns the new link map and the removed
element (if any). -/
def LIST_REMOVE_links (elem : Nat) (nxt : Nat → Option Nat) :
    (Nat → Option Nat) × Option Nat :=
  match nxt elem with
  | none => (nxt, none)
  | some e => (fun k => if k = elem then nxt e else nxt k, some e)

theorem mergeC_nil_right (cmp : α → α → Int) (l : List α) : mergeC cmp l [] = l := by
  cases l <;> simp [mergeC]

theorem mergeStep_eq (cmp : α → α → Int) (l : List α) (rs : Nat) (r : List α) :
    mergeStep cmp l rs r = (mergeC cmp l (r.take rs), r.drop rs) := by
  induction l, rs, r using mergeStep.induct cmp with
  | case1 rs b rt ih => simp [mergeStep, mergeC, ih]
  | case2 rs => simp [mergeStep, mergeC]
  | case3 r => simp [mergeStep, mergeC]
  | case4 a lt rs b rt h ih => simp [mergeStep, mergeC, h, ih]
  | case5 a lt rs b rt h ih => simp [mergeStep, mergeC, h, ih]
  | case6 a lt rs r h1 ih =>
      rcases rs with _ | rs <;> rcases r with _ | ⟨b, rt⟩
      · simp [mergeStep, mergeC_nil_right, ih]
      · simp [mergeStep, mergeC_nil_right, ih]
      · simp [mergeStep, mergeC_nil_right, ih]
      · exact (h1 rs b rt rfl rfl).elim

theorem mergeC_length (cmp : α → α → Int) (l r : List α) :
    (mergeC cmp l r).length = l.length + r.length := by
  induction l, r using mergeC.induct cmp with
  | case1 r => simp [mergeC]
  | case2 a lt => simp [mergeC]
  | case3 a lt b rt h ih => simp [mergeC, h, ih]; omega
  | case4 a lt b rt h ih => simp [mergeC, h, ih]; omega

theorem mergeStep_snd_length (cmp : α → α → Int) (l : List α) (rs : Nat) (r : List α) :
    (mergeStep cmp l rs r).2.length ≤ r.length := by
  rw [mergeStep_eq]
  simp

/-- Embedding of one pass of `LIST_SORT` (the body of the outer `do` loop,
src/list.h lines 332-368) at run length `g = _list_gl`.  Each iteration of the
`while (_list_l != NULL)` loop counts the pair in `_list_nm`, scans off a left
run of up to `g` elements (for `g ≥ 1` and a chain `a :: t` this run is
`a :: t.take (g-1) = (a :: t).take g` and the scan ends at
`t.drop (g-1) = (a :: t).drop g`, since the scan loop always advances at least
once), merges it against a right-run budget of `g` via `mergeStep`, and
continues from the final position of `_list_r`.  Returns `_list_nm` and the
relinked chain for the pass. -/
def sortPass (cmp : α → α → Int) (g : Nat) : List α → Nat × List α
  | [] => (0, [])
  | a :: t =>
    let ms := mergeStep cmp (a :: t.take (g - 1)) g (t.drop (g - 1))
    let p := sortPass cmp g ms.2
    (p.1 + 1, ms.1 ++ p.2)
termination_by l => l.length
decreasing_by
  have h1 := mergeStep_snd_length cmp (a :: t.take (g - 1)) g (t.drop (g - 1))
  simp at h1 ⊢
  omega

theorem sortPass_cons (cmp : α → α → Int) {g : Nat} (hg : 1 ≤ g) (a : α) (t : List α) :
    sortPass cmp g (a :: t) =
      ((sortPass cmp g ((a :: t).drop (2 * g))).1 + 1,
       mergeC cmp ((a :: t).take g) (((a :: t).drop g).take g) ++
         (sortPass cmp g ((a :: t).drop (2 * g))).2) := by
  obtain ⟨g, rfl⟩ : ∃ g', g = g' + 1 := ⟨g - 1, by omega⟩
  have hdd : (t.drop g).drop (g + 1) = t.drop (g + (g + 1)) := by
    rw [List.drop_drop]
  have h2 : (a :: t).drop (2 * (g + 1)) = t.drop (g + (g + 1)) := by
    have : 2 * (g + 1) = (g + (g + 1)) + 1 := by ring
    rw [this, List.drop_succ_cons]
  simp only [sortPass, mergeStep_eq, Nat.add_sub_cancel, List.take_succ_cons,
    List.drop_succ_cons, hdd, h2]

theorem sortPass_fst_zero_iff (cmp : α → α → Int) (g : Nat) (l : List α) :
    (sortPass cmp g l).1 = 0 ↔ l = [] := by
  cases l <;> simp [sortPass]

theorem sortPass_snd_length (cmp : α → α → Int) {g : Nat} (hg : 1 ≤ g) (l : List α) :
    (sortPass cmp g l).2.length = l.length := by
  suffices H : ∀ (n : Nat) (l : List α), l.length ≤ n →
      (sortPass cmp g l).2.length = l.length from H l.length l le_rfl
  intro n
  induction n with
  | zero =>
    intro l hl
    have : l = [] := by cases l <;> simp_all
    subst this; simp [sortPass]
  | succ n ih =>
    intro l hl
    cases l with
    | nil => simp [sortPass]
    | cons a t =>
      rw [sortPass_cons cmp hg]
      have hrest : ((a :: t).drop (2 * g)).length ≤ n := by
        simp at hl ⊢; omega
      simp [mergeC_length, ih _ hrest]
      omega

theorem sortPass_one_lt (cmp : α → α → Int) {g : Nat} (hg : 1 ≤ g) (l : List α) :
    1 < (sortPass cmp g l).1 → 2 * g < l.length := by
  cases l with
  | nil => simp [sortPass]
  | cons a t =>
    rw [sortPass_cons cmp hg]
    intro h
    have h2 : (sortPass cmp g ((a :: t).drop (2 * g))).1 ≠ 0 := by omega
    rw [Ne, sortPass_fst_zero_iff] at h2
    have h3 : 0 < ((a :: t).drop (2 * g)).length := List.length_pos.mpr h2
    simp at h3 ⊢
    omega

/-- Embedding of the outer `do ... while (_list_nm > 1)` loop of `LIST_SORT`
(src/list.h lines 330-370).  To keep the recursion well-founded for every
argument, the parameter `g` stores `_list_gl - 1` (so the run length is
`g + 1`; the C code starts at `_list_gl = 1` and doubles it each pass, and
`2 * _list_gl - 1 = 2 * g + 1`). -/
def sortLoop (cmp : α → α → Int) (g : Nat) (x : List α) : List α :=
  let p := sortPass cmp (g + 1) x
  if h : 1 < p.1 then sortLoop cmp (2 * g + 1) p.2 else p.2
termination_by x.length - g
decreasing_by
  have h1 := @sortPass_snd_length _ cmp (g + 1) (by omega) x
  have h2 := @sortPass_one_lt _ cmp (g + 1) (by omega) x h
  simp at h1 ⊢
  omega

/-- Embedding of `LIST_SORT` (src/list.h lines 323-372): a no-op on chains of
fewer than two elements, otherwise the bottom-up merge-sort loop starting at
run length 1. -/
def LIST_SORT (cmp : α → α → Int) (l : List α) : List α :=
  match l with
  | [] => l
  | [_] => l
  | _ :: _ :: _ => sortLoop cmp 0 l

theorem uniqueInner_some_length (cmp : α → α → Int) (f : α) :
    ∀ (l s rem : List α), uniqueInner cmp f l = some (s, rem) → s.length ≤ l.length := by
  suffices H : ∀ (n : Nat) (l s rem : List α), l.length ≤ n →
      uniqueInner cmp f l = some (s, rem) → s.length ≤ l.length from
    fun l s rem h => H l.length l s rem le_rfl h
  intro n
  induction n with
  | zero =>
    intro l s rem hl h
    have : l = [] := by cases l <;> simp_all
    subst this
    simp [uniqueInner] at h
    obtain ⟨rfl, rfl⟩ := h
    simp
  | succ n ih =>
    intro l s rem hl h
    cases l with
    | nil =>
      simp [uniqueInner] at h
      obtain ⟨rfl, rfl⟩ := h
      simp
    | cons b t =>
      cases t with
      | nil =>
        by_cases hc : cmp f b = 0
        · simp [uniqueInner, hc] at h
        · simp [uniqueInner, hc] at h
          obtain ⟨rfl, rfl⟩ := h
          simp
      | cons c u =>
        by_cases hc : cmp f b = 0
        · simp only [uniqueInner, if_pos hc] at h
          cases h3 : uniqueInner cmp f u with
          | none => rw [h3] at h; simp at h
          | some p =>
            obtain ⟨s', rem'⟩ := p
            rw [h3] at h
            simp at h
            have hu : u.length ≤ n := by simp at hl; omega
            have hr := ih u s' rem' hu h3
            have hs : s.length = s'.length + 1 := by rw [← h.1]; simp
            simp only [List.length_cons]
            omega
        · simp only [uniqueInner, if_neg hc] at h
          cases h3 : uniqueInner cmp f (c :: u) with
          | none => rw [h3] at h; simp at h
          | some p =>
            obtain ⟨s', rem'⟩ := p
            rw [h3] at h
            simp at h
            have ht : (c :: u).length ≤ n := by simp at hl ⊢; omega
            have hr := ih (c :: u) s' rem' ht h3
            have hs : s.length = s'.length + 1 := by rw [← h.1]; simp
            simp only [List.length_cons] at hr ⊢
            omega

/-- Embedding of `LIST_UNIQUE` (src/list.h lines 383-395): the outer loop
walks the reference element `_list_f` along the chain, running the inner scan
from it; `_list_f` then advances to its (possibly updated) successor, which is
the head of the chain the inner scan returned.  Returns the final chain and
all elements handed to the cleanup callback, or `none` if some inner scan
dereferenced NULL. -/
def LIST_UNIQUE (cmp : α → α → Int) : List α → Option (List α × List α)
  | [] => some ([], [])
  | a :: t =>
    match h : uniqueInner cmp a t with
    | none => none
    | some (s, rem1) =>
      match LIST_UNIQUE cmp s with
      | none => none
      | some (s', rem2) => some (a :: s', rem1 ++ rem2)
termination_by l => l.length
decreasing_by
  have := uniqueInner_some_length cmp a t s rem1 h
  simp
  omega

theorem cmp_self_eq_zero {cmp : α → α → Int} (hc : CmpContract cmp) (a : α) :
    cmp a a = 0 := by
  have h := hc.flip a a
  rcases lt_trichotomy (cmp a a) 0 with h1 | h1 | h1
  · exact absurd (h.mp h1) (by omega)
  · exact h1
  · exact absurd (h.mpr h1) (by omega)

theorem cmp_le_of_not_lt {cmp : α → α → Int} (hc : CmpContract cmp) {a b : α}
    (h : ¬ cmp a b < 0) : cmp b a ≤ 0 := by
  by_contra h3
  push_neg at h3
  exact h ((hc.flip a b).mpr h3)

theorem cmp_lt_of_pos {cmp : α → α → Int} (hc : CmpContract cmp) {a b : α}
    (h : 0 < cmp a b) : cmp b a < 0 :=
  (hc.flip b a).mpr h

theorem cmp_lt_trans {cmp : α → α → Int} (hc : CmpContract cmp) {a b c : α}
    (h1 : cmp a b < 0) (h2 : cmp b c < 0) : cmp a c < 0 := by
  by_contra h3
  have h4 : cmp c a ≤ 0 := cmp_le_of_not_lt hc h3
  have h5 : cmp c b ≤ 0 := hc.le_trans c a b h4 (le_of_lt h1)
  have h6 : 0 < cmp c b := (hc.flip b c).mp h2
  omega

theorem sortedB_cons_cons (cmp : α → α → Int) (a b : α) (t : List α) :
    sortedB cmp (a :: b :: t) = true ↔ cmp a b ≤ 0 ∧ sortedB cmp (b :: t) = true := by
  simp [sortedB]

theorem sortedB_tail (cmp : α → α → Int) (a : α) (t : List α)
    (h : sortedB cmp (a :: t) = true) : sortedB cmp t = true := by
  cases t with
  | nil => simp [sortedB]
  | cons b t' => exact ((sortedB_cons_cons cmp a b t').mp h).2

theorem mergeC_head? (cmp : α → α → Int) (l r : List α) :
    (mergeC cmp l r).head? = l.head? ∨ (mergeC cmp l r).head? = r.head? := by
  cases l with
  | nil => right; simp [mergeC]
  | cons a lt =>
    cases r with
    | nil => left; simp [mergeC]
    | cons b rt =>
      by_cases h : cmp a b < 0
      · left; simp [mergeC, h]
      · right; simp [mergeC, h]

theorem mergeC_sorted {cmp : α → α → Int} (hc : CmpContract cmp) (l r : List α)
    (hl : sortedB cmp l = true) (hr : sortedB cmp r = true) :
    sortedB cmp (mergeC cmp l r) = true := by
  induction l, r using mergeC.induct cmp with
  | case1 r => simpa [mergeC] using hr
  | case2 a lt => simpa [mergeC] using hl
  | case3 a lt b rt h ih =>
    rw [show mergeC cmp (a :: lt) (b :: rt) = a :: mergeC cmp lt (b :: rt) by
      simp [mergeC, h]]
    have hm := ih (sortedB_tail cmp a lt hl) hr
    cases hM : mergeC cmp lt (b :: rt) with
    | nil => simp [sortedB]
    | cons y ys =>
      rw [sortedB_cons_cons]
      refine ⟨?_, by rw [← hM]; exact hm⟩
      have hh := mergeC_head? cmp lt (b :: rt)
      rw [hM] at hh
      cases hh with
      | inl hh =>
        cases lt with
        | nil => simp at hh
        | cons z zs =>
          simp at hh
          subst hh
          exact ((sortedB_cons_cons cmp a y zs).mp hl).1
      | inr hh =>
        simp at hh
        subst hh
        exact le_of_lt h
  | case4 a lt b rt h ih =>
    rw [show mergeC cmp (a :: lt) (b :: rt) = b :: mergeC cmp (a :: lt) rt by
      simp [mergeC, h]]
    have hm := ih hl (sortedB_tail cmp b rt hr)
    cases hM : mergeC cmp (a :: lt) rt with
    | nil => simp [sortedB]
    | cons y ys =>
      rw [sortedB_cons_cons]
      refine ⟨?_, by rw [← hM]; exact hm⟩
      have hh := mergeC_head? cmp (a :: lt) rt
      rw [hM] at hh
      cases hh with
      | inl hh =>
        simp at hh
        subst hh
        exact cmp_le_of_not_lt hc h
      | inr hh =>
        cases rt with
        | nil => simp at hh
        | cons z zs =>
          simp at hh
          subst hh
          exact ((sortedB_cons_cons cmp b y zs).mp hr).1

theorem mergeC_perm (cmp : α → α → Int) (l r : List α) :
    (mergeC cmp l r).Perm (l ++ r) := by
  induction l, r using mergeC.induct cmp with
  | case1 r => simp [mergeC]
  | case2 a lt => simp [mergeC]
  | case3 a lt b rt h ih =>
    rw [show mergeC cmp (a :: lt) (b :: rt) = a :: mergeC cmp lt (b :: rt) by
      simp [mergeC, h]]
    simpa using ih.cons a
  | case4 a lt b rt h ih =>
    rw [show mergeC cmp (a :: lt) (b :: rt) = b :: mergeC cmp (a :: lt) rt by
      simp [mergeC, h]]
    exact (ih.cons b).trans List.perm_middle.symm

theorem mergeC_of_all_lt {cmp : α → α → Int} :
    ∀ (l r : List α), (∀ x ∈ l, ∀ y ∈ r, cmp x y < 0) → mergeC cmp l r = l ++ r := by
  intro l
  induction l with
  | nil => intro r _; simp [mergeC]
  | cons a lt ih =>
    intro r hlt
    cases r with
    | nil => simp [mergeC]
    | cons b rt =>
      have hab : cmp a b < 0 := hlt a (by simp) b (by simp)
      rw [show mergeC cmp (a :: lt) (b :: rt) = a :: mergeC cmp lt (b :: rt) by
        simp [mergeC, hab]]
      rw [ih (b :: rt) (fun x hx y hy => hlt x (by simp [hx]) y hy)]
      simp

theorem mergeC_of_all_not_lt {cmp : α → α → Int} :
    ∀ (r l : List α), (∀ x ∈ l, ∀ y ∈ r, ¬ cmp x y < 0) →
      mergeC cmp l r = r ++ l := by
  intro r
  induction r with
  | nil => intro l _; simp [mergeC_nil_right]
  | cons b rt ih =>
    intro l hlt
    cases l with
    | nil => simp [mergeC]
    | cons a lt =>
      have hab : ¬ cmp a b < 0 := hlt a (by simp) b (by simp)
      rw [show mergeC cmp (a :: lt) (b :: rt) = b :: mergeC cmp (a :: lt) rt by
        simp [mergeC, hab]]
      rw [ih (a :: lt) (fun x hx y hy => hlt x hx y (by simp [hy]))]
      simp

theorem runsSorted_iff (cmp : α → α → Int) {g : Nat} (hg : 1 ≤ g) (l : List α) :
    runsSorted cmp g l ↔
      (l = [] ∨ (sortedB cmp (l.take g) = true ∧ runsSorted cmp g (l.drop g))) := by
  cases l with
  | nil => simp [runsSorted]
  | cons a t =>
    obtain ⟨g, rfl⟩ : ∃ g', g = g' + 1 := ⟨g - 1, by omega⟩
    rw [show runsSorted cmp (g + 1) (a :: t) =
      (sortedB cmp ((a :: t).take (g + 1)) = true ∧
        runsSorted cmp (g + 1) (t.drop (g + 1 - 1))) by simp [runsSorted]]
    simp [List.drop_succ_cons]

theorem runsSorted_one (cmp : α → α → Int) (l : List α) : runsSorted cmp 1 l := by
  induction l with
  | nil => simp [runsSorted]
  | cons a t ih =>
    rw [runsSorted_iff cmp le_rfl]
    right
    exact ⟨by simp [sortedB], by simpa using ih⟩

theorem sortPass_runs {cmp : α → α → Int} (hc : CmpContract cmp) {g : Nat}
    (hg : 1 ≤ g) (l : List α) (hr : runsSorted cmp g l) :
    runsSorted cmp (2 * g) (sortPass cmp g l).2 := by
  suffices H : ∀ (n : Nat) (l : List α), l.length ≤ n → runsSorted cmp g l →
      runsSorted cmp (2 * g) (sortPass cmp g l).2 from H l.length l le_rfl hr
  intro n
  induction n with
  | zero =>
    intro l hl _
    have : l = [] := by cases l <;> simp_all
    subst this
    simp [sortPass, runsSorted]
  | succ n ih =>
    intro l hl hr
    cases l with
    | nil => simp [sortPass, runsSorted]
    | cons a t =>
      have hr1 := (runsSorted_iff cmp hg (a :: t)).mp hr
      simp only [reduceCtorEq, false_or] at hr1
      obtain ⟨hA, hdl⟩ := hr1
      have hB : sortedB cmp (((a :: t).drop g).take g) = true := by
        rcases (runsSorted_iff cmp hg ((a :: t).drop g)).mp hdl with h | h
        · simp [h, sortedB]
        · exact h.1
      have hmerged : sortedB cmp
          (mergeC cmp ((a :: t).take g) (((a :: t).drop g).take g)) = true :=
        mergeC_sorted hc _ _ hA hB
      have hrest : runsSorted cmp g ((a :: t).drop (2 * g)) := by
        rcases (runsSorted_iff cmp hg ((a :: t).drop g)).mp hdl with h | h
        · have : (a :: t).drop (2 * g) = [] := by
            have h2 : (a :: t).length ≤ g := by
              have := congrArg List.length h
              simp at this
              simp
              omega
            apply List.drop_eq_nil_of_le
            omega
          rw [this]
          simp [runsSorted]
        · have : ((a :: t).drop g).drop g = (a :: t).drop (2 * g) := by
            rw [List.drop_drop]
            congr 1
            ring
          rw [← this]
          exact h.2
      have hlen : ((a :: t).drop (2 * g)).length ≤ n := by
        simp at hl ⊢
        omega
      have hP2 := ih _ hlen hrest
      have hout : (sortPass cmp g (a :: t)).2 =
          mergeC cmp ((a :: t).take g) (((a :: t).drop g).take g) ++
            (sortPass cmp g ((a :: t).drop (2 * g))).2 := by
        rw [sortPass_cons cmp hg]
      set merged := mergeC cmp ((a :: t).take g) (((a :: t).drop g).take g)
        with hmdef
      set P2 := (sortPass cmp g ((a :: t).drop (2 * g))).2 with hP2def
      have hmlen : merged.length =
          ((a :: t).take g).length + (((a :: t).drop g).take g).length := by
        rw [hmdef, mergeC_length]
      rw [hout, runsSorted_iff cmp (by omega : 1 ≤ 2 * g)]
      by_cases hP2nil : P2 = []
      · right
        have hm2g : merged.length ≤ 2 * g := by
          rw [hmlen]
          simp
          omega
        constructor
        · rw [hP2nil, List.append_nil, List.take_of_length_le hm2g]
          exact hmerged
        · rw [hP2nil, List.append_nil, List.drop_eq_nil_of_le hm2g]
          simp [runsSorted]
      · right
        have hrest_ne : (a :: t).drop (2 * g) ≠ [] := by
          intro h
          rw [h] at hP2def
          simp [sortPass] at hP2def
          exact hP2nil hP2def
        have hlong : 2 * g < (a :: t).length := by
          have := List.length_pos.mpr hrest_ne
          simp at this ⊢
          omega
        have hm2g : merged.length = 2 * g := by
          rw [hmlen]
          simp at hlong ⊢
          omega
        constructor
        · rw [List.take_append_of_le_length (by omega), List.take_of_length_le (by omega)]
          exact hmerged
        · rw [List.drop_append_of_le_length (by omega), List.drop_eq_nil_of_le (by omega)]
          simpa using hP2

theorem sortPass_exit {cmp : α → α → Int} (hc : CmpContract cmp) {g : Nat}
    (hg : 1 ≤ g) (l : List α) (hr : runsSorted cmp g l)
    (hnm : (sortPass cmp g l).1 ≤ 1) : sortedB cmp (sortPass cmp g l).2 = true := by
  cases l with
  | nil => simp [sortPass, sortedB]
  | cons a t =>
    rw [sortPass_cons cmp hg] at hnm ⊢
    have h0 : (sortPass cmp g ((a :: t).drop (2 * g))).1 = 0 := by omega
    rw [sortPass_fst_zero_iff] at h0
    rw [h0]
    simp only [sortPass, List.append_nil]
    have hr1 := (runsSorted_iff cmp hg (a :: t)).mp hr
    simp only [reduceCtorEq, false_or] at hr1
    obtain ⟨hA, hdl⟩ := hr1
    have hB : sortedB cmp (((a :: t).drop g).take g) = true := by
      rcases (runsSorted_iff cmp hg ((a :: t).drop g)).mp hdl with h | h
      · simp [h, sortedB]
      · exact h.1
    exact mergeC_sorted hc _ _ hA hB

theorem sortPass_perm (cmp : α → α → Int) {g : Nat} (hg : 1 ≤ g) (l : List α) :
    ((sortPass cmp g l).2).Perm l := by
  suffices H : ∀ (n : Nat) (l : List α), l.length ≤ n →
      ((sortPass cmp g l).2).Perm l from H l.length l le_rfl
  intro n
  induction n with
  | zero =>
    intro l hl
    have : l = [] := by cases l <;> simp_all
    subst this
    simp [sortPass]
  | succ n ih =>
    intro l hl
    cases l with
    | nil => simp [sortPass]
    | cons a t =>
      rw [sortPass_cons cmp hg]
      have hlen : ((a :: t).drop (2 * g)).length ≤ n := by
        simp at hl ⊢
        omega
      have hdd : ((a :: t).drop g).drop g = (a :: t).drop (2 * g) := by
        rw [List.drop_drop]
        congr 1
        ring
      calc (mergeC cmp ((a :: t).take g) (((a :: t).drop g).take g) ++
              (sortPass cmp g ((a :: t).drop (2 * g))).2).Perm
            (((a :: t).take g ++ ((a :: t).drop g).take g) ++
              (a :: t).drop (2 * g)) :=
              (mergeC_perm cmp _ _).append (ih _ hlen)
        _ = (a :: t).take g ++ (((a :: t).drop g).take g ++
              ((a :: t).drop g).drop g) := by rw [List.append_assoc, hdd]
        _ = (a :: t).take g ++ (a :: t).drop g := by rw [List.take_append_drop]
        _ = a :: t := by rw [List.take_append_drop]

theorem sortLoop_sorted {cmp : α → α → Int} (hc : CmpContract cmp) :
    ∀ (g : Nat) (x : List α), runsSorted cmp (g + 1) x →
      sortedB cmp (sortLoop cmp g x) = true := by
  intro g x
  induction g, x using sortLoop.induct cmp with
  | case1 g x p h ih =>
    intro hr
    have h' : 1 < (sortPass cmp (g + 1) x).1 := h
    rw [sortLoop]
    simp only [dif_pos h']
    apply ih
    have h2 := @sortPass_runs _ cmp hc (g + 1) (by omega) x hr
    have h22 : 2 * (g + 1) = (2 * g + 1) + 1 := by ring
    rw [h22] at h2
    exact h2
  | case2 g x p h =>
    intro hr
    have h' : ¬ 1 < (sortPass cmp (g + 1) x).1 := h
    rw [sortLoop]
    simp only [dif_neg h']
    exact sortPass_exit hc (by omega) x hr (by omega)

theorem sortLoop_perm (cmp : α → α → Int) :
    ∀ (g : Nat) (x : List α), (sortLoop cmp g x).Perm x := by
  intro g x
  induction g, x using sortLoop.induct cmp with
  | case1 g x p h ih =>
    have h' : 1 < (sortPass cmp (g + 1) x).1 := h
    rw [sortLoop]
    simp only [dif_pos h']
    exact ih.trans (sortPass_perm cmp (by omega) x)
  | case2 g x p h =>
    have h' : ¬ 1 < (sortPass cmp (g + 1) x).1 := h
    rw [sortLoop]
    simp only [dif_neg h']
    exact sortPass_perm cmp (by omega) x

theorem strictSortedB_cons_cons (cmp : α → α → Int) (a b : α) (t : List α) :
    strictSortedB cmp (a :: b :: t) = true ↔
      cmp a b < 0 ∧ strictSortedB cmp (b :: t) = true := by
  simp [strictSortedB]

theorem strict_head_lt {cmp : α → α → Int} (hc : CmpContract cmp) :
    ∀ (t : List α) (a : α), strictSortedB cmp (a :: t) = true →
      ∀ x ∈ t, cmp a x < 0 := by
  intro t
  induction t with
  | nil => intro a _ x hx; simp at hx
  | cons b t' ih =>
    intro a h x hx
    obtain ⟨hab, hbt⟩ := (strictSortedB_cons_cons cmp a b t').mp h
    rcases List.mem_cons.mp hx with rfl | hx'
    · exact hab
    · exact cmp_lt_trans hc hab (ih b hbt x hx')

theorem strict_pairwise {cmp : α → α → Int} (hc : CmpContract cmp) :
    ∀ (l : List α), strictSortedB cmp l = true →
      List.Pairwise (fun a b => cmp a b < 0) l := by
  intro l
  induction l with
  | nil => intro _; simp
  | cons a t ih =>
    intro h
    have htail : strictSortedB cmp t = true := by
      cases t with
      | nil => simp [strictSortedB]
      | cons b t' => exact ((strictSortedB_cons_cons cmp a b t').mp h).2
    exact List.Pairwise.cons (strict_head_lt hc t a h) (ih htail)

theorem sortPass_strict {cmp : α → α → Int} {g : Nat} (hg : 1 ≤ g) :
    ∀ (l : List α), List.Pairwise (fun a b => cmp a b < 0) l →
      (sortPass cmp g l).2 = l := by
  suffices H : ∀ (n : Nat) (l : List α), l.length ≤ n →
      List.Pairwise (fun a b => cmp a b < 0) l → (sortPass cmp g l).2 = l from
    fun l hp => H l.length l le_rfl hp
  intro n
  induction n with
  | zero =>
    intro l hl _
    have : l = [] := by cases l <;> simp_all
    subst this
    simp [sortPass]
  | succ n ih =>
    intro l hl hp
    cases l with
    | nil => simp [sortPass]
    | cons a t =>
      have hout : (sortPass cmp g (a :: t)).2 =
          mergeC cmp ((a :: t).take g) (((a :: t).drop g).take g) ++
            (sortPass cmp g ((a :: t).drop (2 * g))).2 := by
        rw [sortPass_cons cmp hg]
      have hsplit := hp
      rw [← List.take_append_drop g (a :: t)] at hsplit
      obtain ⟨-, -, hcross⟩ := List.pairwise_append.mp hsplit
      have hAB : mergeC cmp ((a :: t).take g) (((a :: t).drop g).take g) =
          (a :: t).take g ++ ((a :: t).drop g).take g := by
        apply mergeC_of_all_lt
        intro x hx y hy
        exact hcross x hx y (List.take_subset g _ hy)
      have hdd : ((a :: t).drop g).drop g = (a :: t).drop (2 * g) := by
        rw [List.drop_drop]
        congr 1
        ring
      have hrestp : List.Pairwise (fun a b => cmp a b < 0) ((a :: t).drop (2 * g)) :=
        hp.sublist (List.drop_sublist _ _)
      have hlen : ((a :: t).drop (2 * g)).length ≤ n := by
        simp at hl ⊢
        omega
      rw [hout, hAB, ih _ hlen hrestp, List.append_assoc, ← hdd,
        List.take_append_drop, List.take_append_drop]

theorem sortLoop_id {cmp : α → α → Int} :
    ∀ (g : Nat) (x : List α), List.Pairwise (fun a b => cmp a b < 0) x →
      sortLoop cmp g x = x := by
  intro g x
  induction g, x using sortLoop.induct cmp with
  | case1 g x p h ih =>
    intro hp
    have h' : 1 < (sortPass cmp (g + 1) x).1 := h
    rw [sortLoop]
    simp only [dif_pos h']
    have hid : (sortPass cmp (g + 1) x).2 = x := sortPass_strict (by omega) x hp
    rw [hid]
    have ih' : List.Pairwise (fun a b => cmp a b < 0) (sortPass cmp (g + 1) x).2 →
        sortLoop cmp (2 * g + 1) (sortPass cmp (g + 1) x).2 = (sortPass cmp (g + 1) x).2 := ih
    rw [hid] at ih'
    exact ih' hp
  | case2 g x p h =>
    intro hp
    have h' : ¬ 1 < (sortPass cmp (g + 1) x).1 := h
    rw [sortLoop]
    simp only [dif_neg h']
    exact sortPass_strict (by omega) x hp

theorem maxLoop_spec {cmp : α → α → Int} (hc : CmpContract cmp) :
    ∀ (rest : List α) (out : α),
      cmp out (maxLoop cmp out rest) ≤ 0 ∧
      (∀ x ∈ rest, cmp x (maxLoop cmp out rest) ≤ 0) ∧
      ((maxLoop cmp out rest = out ∧ ∀ x ∈ rest, cmp x out < 0) ∨
       ∃ l1 l2, rest = l1 ++ maxLoop cmp out rest :: l2 ∧
         ∀ x ∈ l2, cmp x (maxLoop cmp out rest) < 0) := by
  intro rest
  induction rest with
  | nil =>
    intro out
    refine ⟨?_, by simp, Or.inl ⟨rfl, by simp⟩⟩
    rw [maxLoop]
    exact le_of_eq (cmp_self_eq_zero hc out)
  | cons e t ih =>
    intro out
    by_cases h : cmp out e < 1
    · simp only [maxLoop, if_pos h]
      obtain ⟨ih1, ih2, ih3⟩ := ih e
      have hoe : cmp out e ≤ 0 := by omega
      refine ⟨hc.le_trans out e _ hoe ih1, ?_, ?_⟩
      · intro x hx
        rcases List.mem_cons.mp hx with rfl | hx'
        · exact ih1
        · exact ih2 x hx'
      · rcases ih3 with ⟨hme, hall⟩ | ⟨l1, l2, heq, hl2⟩
        · right
          refine ⟨[], t, ?_, ?_⟩
          · rw [hme]; rfl
          · rw [hme]; exact hall
        · right
          exact ⟨e :: l1, l2, by rw [List.cons_append, ← heq], hl2⟩
    · simp only [maxLoop, if_neg h]
      obtain ⟨ih1, ih2, ih3⟩ := ih out
      have heo : cmp e out < 0 := cmp_lt_of_pos hc (by omega)
      refine ⟨ih1, ?_, ?_⟩
      · intro x hx
        rcases List.mem_cons.mp hx with rfl | hx'
        · exact hc.le_trans x out _ (le_of_lt heo) ih1
        · exact ih2 x hx'
      · rcases ih3 with ⟨hme, hall⟩ | ⟨l1, l2, heq, hl2⟩
        · left
          refine ⟨hme, ?_⟩
          intro x hx
          rcases List.mem_cons.mp hx with rfl | hx'
          · exact heo
          · exact hall x hx'
        · right
          exact ⟨e :: l1, l2, by rw [List.cons_append, ← heq], hl2⟩

theorem minLoop_spec {cmp : α → α → Int} (hc : CmpContract cmp) :
    ∀ (rest : List α) (out : α),
      cmp (minLoop cmp out rest) out ≤ 0 ∧
      (∀ x ∈ rest, cmp (minLoop cmp out rest) x ≤ 0) ∧
      ((minLoop cmp out rest = out ∧ ∀ x ∈ rest, cmp out x < 0) ∨
       ∃ l1 l2, rest = l1 ++ minLoop cmp out rest :: l2 ∧
         ∀ x ∈ l2, cmp (minLoop cmp out rest) x < 0) := by
  intro rest
  induction rest with
  | nil =>
    intro out
    refine ⟨?_, by simp, Or.inl ⟨rfl, by simp⟩⟩
    rw [minLoop]
    exact le_of_eq (cmp_self_eq_zero hc out)
  | cons e t ih =>
    intro out
    by_cases h : cmp out e > -1
    · simp only [minLoop, if_pos h]
      obtain ⟨ih1, ih2, ih3⟩ := ih e
      have heo : cmp e out ≤ 0 := cmp_le_of_not_lt hc (by omega)
      refine ⟨hc.le_trans _ e out ih1 heo, ?_, ?_⟩
      · intro x hx
        rcases List.mem_cons.mp hx with rfl | hx'
        · exact ih1
        · exact ih2 x hx'
      · rcases ih3 with ⟨hme, hall⟩ | ⟨l1, l2, heq, hl2⟩
        · right
          refine ⟨[], t, ?_, ?_⟩
          · rw [hme]; rfl
          · rw [hme]; exact hall
        · right
          exact ⟨e :: l1, l2, by rw [List.cons_append, ← heq], hl2⟩
    · simp only [minLoop, if_neg h]
      obtain ⟨ih1, ih2, ih3⟩ := ih out
      have hoe : cmp out e < 0 := by omega
      refine ⟨ih1, ?_, ?_⟩
      · intro x hx
        rcases List.mem_cons.mp hx with rfl | hx'
        · exact hc.le_trans _ out x ih1 (le_of_lt hoe)
        · exact ih2 x hx'
      · rcases ih3 with ⟨hme, hall⟩ | ⟨l1, l2, heq, hl2⟩
        · left
          refine ⟨hme, ?_⟩
          intro x hx
          rcases List.mem_cons.mp hx with rfl | hx'
          · exact hoe
          · exact hall x hx'
        · right
          exact ⟨e :: l1, l2, by rw [List.cons_append, ← heq], hl2⟩

theorem linkAfterLast_eq_append : ∀ (g l : List α), linkAfterLast g l = l ++ g := by
  intro g l
  induction l with
  | nil => simp [linkAfterLast]
  | cons a t ih =>
    cases t with
    | nil => simp [linkAfterLast]
    | cons b t' =>
      rw [show linkAfterLast g (a :: b :: t') = a :: linkAfterLast g (b :: t') from
        by simp [linkAfterLast]]
      rw [ih]
      rfl

theorem LIST_UNIQUE_nil (cmp : α → α → Int) :
    LIST_UNIQUE cmp ([] : List α) = some ([], []) := by
  rw [LIST_UNIQUE]

theorem LIST_UNIQUE_cons (cmp : α → α → Int) (a : α) (t : List α) :
    LIST_UNIQUE cmp (a :: t) =
      match uniqueInner cmp a t with
      | none => none
      | some (s, rem1) =>
        match LIST_UNIQUE cmp s with
        | none => none
        | some (s', rem2) => some (a :: s', rem1 ++ rem2) := by
  rw [LIST_UNIQUE]
  cases h : uniqueInner cmp a t <;> rfl

/-- Claim C1: for every list and every comparator obeying the contract
(negative iff strict precedence, antisymmetric sign, transitive induced
preorder), the chain produced by `LIST_SORT` is non-decreasing: every
adjacent pair `(a, b)` of the result satisfies `cmp a b ≤ 0`. -/
theorem C1_sort_nondecreasing {cmp : α → α → Int} (hc : CmpContract cmp)
    (l : List α) : sortedB cmp (LIST_SORT cmp l) = true := by
  match l with
  | [] => simp [LIST_SORT, sortedB]
  | [a] => simp [LIST_SORT, sortedB]
  | a :: b :: t =>
    show sortedB cmp (sortLoop cmp 0 (a :: b :: t)) = true
    exact sortLoop_sorted hc 0 _ (by simpa using runsSorted_one cmp (a :: b :: t))

/-- Witness for C1 at the comparator `a - b` and the spec's example list
`[5, 3, 3, 1, 4]`. -/
theorem C1_sort_nondecreasing_witness :
    sortedB (fun a b : Int => a - b)
      (LIST_SORT (fun a b : Int => a - b) [5, 3, 3, 1, 4]) = true :=
  C1_sort_nondecreasing
    ⟨fun a b => by constructor <;> intro h <;> omega,
     fun a b c h1 h2 => by omega⟩ _

/-- Claim C2: in a merge step, when a left-run element `l` and a right-run
element `r` are both still available (`ls > 0`, `rs > 0`, `r != NULL`), the
element emitted next is `l` exactly when `cmp l r < 0`, and `r` in every
other case including `cmp l r = 0`; consequently, when all elements compare
equal, the whole available right run is emitted before the left run. -/
theorem C2_merge_tiebreak (cmp : α → α → Int) (a b : α) (lt rt : List α)
    (rs : Nat) :
    ((mergeStep cmp (a :: lt) (rs + 1) (b :: rt)).1.head? =
      some (if cmp a b < 0 then a else b)) ∧
    ((∀ x ∈ a :: lt, ∀ y ∈ b :: rt, cmp x y = 0) →
      mergeStep cmp (a :: lt) (b :: rt).length (b :: rt) =
        ((b :: rt) ++ (a :: lt), [])) := by
  constructor
  · by_cases h : cmp a b < 0 <;> simp [mergeStep, h]
  · intro hall
    rw [mergeStep_eq, List.take_length, List.drop_length]
    rw [mergeC_of_all_not_lt (b :: rt) (a :: lt)
      (fun x hx y hy => by rw [hall x hx y hy]; omega)]

/-- Witness for C2 at the all-equal comparator with left run `[1]` and right
run `[2]`: the right element is emitted first on the tie. -/
theorem C2_merge_tiebreak_witness :
    (mergeStep (fun _ _ => (0 : Int) : Int → Int → Int) [1] 1 [2]).1.head? =
      some 2 ∧
    mergeStep (fun _ _ => (0 : Int) : Int → Int → Int) [1] 1 [2] =
      ([2, 1], []) := by
  have h := C2_merge_tiebreak (fun _ _ => (0 : Int) : Int → Int → Int) 1 2 [] [] 0
  constructor
  · simpa using h.1
  · simpa using h.2 (by intro x hx y hy; rfl)

/-- Counterexample to claim C3 as stated: the list `[(1,10), (1,20)]` is
already non-decreasing under the comparator on first components, yet
`LIST_SORT` swaps the two compare-equal elements (right-biased tie-break),
so the element order of the chain changes. -/
theorem C3_cex :
    sortedB (fun p q : Int × Int => p.1 - q.1) [(1, 10), (1, 20)] = true ∧
    LIST_SORT (fun p q : Int × Int => p.1 - q.1) [(1, 10), (1, 20)] =
      [(1, 20), (1, 10)] ∧
    LIST_SORT (fun p q : Int × Int => p.1 - q.1) [(1, 10), (1, 20)] ≠
      [(1, 10), (1, 20)] := by
  have hp : sortPass (fun p q : Int × Int => p.1 - q.1) 1 [(1, 10), (1, 20)] =
      (1, [(1, 20), (1, 10)]) := by
    rw [sortPass_cons _ le_rfl]
    norm_num [sortPass, mergeC]
  have h2 : LIST_SORT (fun p q : Int × Int => p.1 - q.1) [(1, 10), (1, 20)] =
      [(1, 20), (1, 10)] := by
    show sortLoop _ 0 _ = _
    rw [sortLoop]
    norm_num [hp]
  exact ⟨by decide, h2, by rw [h2]; decide⟩

/-- Claim C3, amended: sorting a chain that is already *strictly* sorted
(`cmp a b < 0` for every adjacent pair; the original claim's "non-decreasing"
fails because compare-equal neighbours are swapped by the right-biased
tie-break) with a contract-obeying comparator leaves the element order of the
chain unchanged. -/
theorem C3_sort_id_of_strict {cmp : α → α → Int} (hc : CmpContract cmp)
    (l : List α) (h : strictSortedB cmp l = true) : LIST_SORT cmp l = l := by
  match l with
  | [] => simp [LIST_SORT]
  | [a] => simp [LIST_SORT]
  | a :: b :: t =>
    show sortLoop cmp 0 (a :: b :: t) = a :: b :: t
    exact sortLoop_id 0 _ (strict_pairwise hc _ h)

/-- Witness for the amended C3 at the comparator `a - b` and the strictly
sorted list `[1, 2, 3]`. -/
theorem C3_sort_id_of_strict_witness :
    LIST_SORT (fun a b : Int => a - b) [1, 2, 3] = [1, 2, 3] :=
  C3_sort_id_of_strict
    ⟨fun a b => by constructor <;> intro h <;> omega,
     fun a b c h1 h2 => by omega⟩ _ (by decide)

/-- Claim C4 exhibit: `LIST_UNIQUE`, run on `[1,1,1]` with the comparator
`a - b`, returns the chain `[1,1]` (with cleanup invoked once, on the middle
element) — two compare-equal elements remain, because after a removal the
scan pointer advances past the element that follows the removed duplicate
without comparing it; and on `[1,2,1]` the removal of the last element drives
the scan pointer to NULL and the loop condition dereferences it (`none`). -/
theorem C4_unique_bug :
    LIST_UNIQUE (fun a b : Int => a - b) [1, 1, 1] = some ([1, 1], [1]) ∧
    (fun a b : Int => a - b) 1 1 = 0 ∧
    LIST_UNIQUE (fun a b : Int => a - b) [1, 2, 1] = none := by
  refine ⟨?_, by decide, ?_⟩
  · norm_num [LIST_UNIQUE_cons, LIST_UNIQUE_nil, uniqueInner]
  · norm_num [LIST_UNIQUE_cons, LIST_UNIQUE_nil, uniqueInner]

/-- Counterexample to claim C5 as stated: under the comparator on first
components, in `[(1,10), (1,20)]` the two elements compare equal, and both
`LIST_MAX` and `LIST_MIN` return the later `(1,20)` — the later equal element
does overwrite the running best, so ties resolve to the last element scanned,
not the first. -/
theorem C5_cex :
    LIST_MAX (fun p q : Int × Int => p.1 - q.1) [(1, 10), (1, 20)] =
      some (1, 20) ∧
    LIST_MAX (fun p q : Int × Int => p.1 - q.1) [(1, 10), (1, 20)] ≠
      some (1, 10) ∧
    LIST_MIN (fun p q : Int × Int => p.1 - q.1) [(1, 10), (1, 20)] =
      some (1, 20) ∧
    LIST_MIN (fun p q : Int × Int => p.1 - q.1) [(1, 10), (1, 20)] ≠
      some (1, 10) := by
  exact ⟨by decide, by decide, by decide, by decide⟩

/-- Claim C5, amended: on a non-empty list with a contract-obeying comparator,
`LIST_MAX` returns an element of the chain that is at least every element
(`cmp x m ≤ 0` for all `x`), and every element *after* the returned occurrence
is strictly worse — so on ties the *last* (not first) tied element is
returned; `LIST_MIN` is the mirror image; on the empty list both return
`none`. -/
theorem C5_max_min_last_tie {cmp : α → α → Int} (hc : CmpContract cmp) :
    (LIST_MAX cmp ([] : List α) = none ∧ LIST_MIN cmp ([] : List α) = none) ∧
    ∀ (a : α) (t : List α),
      (∃ m l1 l2, LIST_MAX cmp (a :: t) = some m ∧ a :: t = l1 ++ m :: l2 ∧
        (∀ x ∈ a :: t, cmp x m ≤ 0) ∧ (∀ x ∈ l2, cmp x m < 0)) ∧
      (∃ m l1 l2, LIST_MIN cmp (a :: t) = some m ∧ a :: t = l1 ++ m :: l2 ∧
        (∀ x ∈ a :: t, cmp m x ≤ 0) ∧ (∀ x ∈ l2, cmp m x < 0)) := by
  refine ⟨⟨rfl, rfl⟩, ?_⟩
  intro a t
  constructor
  · obtain ⟨h1, h2, h3⟩ := maxLoop_spec hc (a :: t) a
    rcases h3 with ⟨hme, hall⟩ | ⟨l1, l2, heq, hl2⟩
    · have h4 := hall a (by simp)
      have h5 := cmp_self_eq_zero hc a
      omega
    · exact ⟨maxLoop cmp a (a :: t), l1, l2, rfl, heq, h2, hl2⟩
  · obtain ⟨h1, h2, h3⟩ := minLoop_spec hc (a :: t) a
    rcases h3 with ⟨hme, hall⟩ | ⟨l1, l2, heq, hl2⟩
    · have h4 := hall a (by simp)
      have h5 := cmp_self_eq_zero hc a
      omega
    · exact ⟨minLoop cmp a (a :: t), l1, l2, rfl, heq, h2, hl2⟩

/-- Witness for the amended C5 at the comparator `a - b` and the list `[1]`. -/
theorem C5_max_min_last_tie_witness :
    (LIST_MAX (fun a b : Int => a - b) ([] : List Int) = none ∧
     LIST_MIN (fun a b : Int => a - b) ([] : List Int) = none) ∧
    ((∃ m l1 l2, LIST_MAX (fun a b : Int => a - b) [1] = some m ∧
        ([1] : List Int) = l1 ++ m :: l2 ∧
        (∀ x ∈ ([1] : List Int), x - m ≤ 0) ∧ (∀ x ∈ l2, x - m < 0)) ∧
     (∃ m l1 l2, LIST_MIN (fun a b : Int => a - b) [1] = some m ∧
        ([1] : List Int) = l1 ++ m :: l2 ∧
        (∀ x ∈ ([1] : List Int), m - x ≤ 0) ∧ (∀ x ∈ l2, m - x < 0))) := by
  have h := @C5_max_min_last_tie Int (fun a b : Int => a - b)
    ⟨fun a b => by constructor <;> intro h <;> omega,
     fun a b c h1 h2 => by omega⟩
  exact ⟨h.1, h.2 1 []⟩

/-- Claim C6 exhibit: `LIST_TAKE` behaves as claimed only for
`1 ≤ n ≤ length`: on `[a,b,c,d]` with `n = 2` it keeps `[a,b]` and hands `c`
then `d` to cleanup, but with `n` greater than the length the advancing scan
runs to NULL and the truncation loop dereferences it (`none`), with `n = 0` it
keeps the first element instead of none, and on an empty list it dereferences
NULL. -/
theorem C6_take_bug :
    LIST_TAKE 2 ([10, 20, 30, 40] : List Int) = some ([10, 20], [30, 40]) ∧
    LIST_TAKE 3 ([10, 20] : List Int) = none ∧
    LIST_TAKE 0 ([10] : List Int) = some ([10], []) ∧
    LIST_TAKE 5 ([] : List Int) = none := by
  exact ⟨by decide, by decide, by decide, rfl⟩

/-- Claim C7: `LIST_APPEND` produces in the first list the concatenation of
the two chains (first list's elements in order, then the second's), whose
length is the sum of the two lengths; the second list becomes empty; and when
the first list was empty its chain becomes exactly the second's former
chain. -/
theorem C7_append (l1 l2 : List α) :
    (LIST_APPEND l1 l2).1 = l1 ++ l2 ∧
    (LIST_APPEND l1 l2).2 = [] ∧
    (LIST_APPEND l1 l2).1.length = l1.length + l2.length ∧
    (LIST_APPEND ([] : List α) l2).1 = l2 := by
  refine ⟨linkAfterLast_eq_append l2 l1, rfl, ?_, rfl⟩
  show (linkAfterLast l2 l1).length = l1.length + l2.length
  rw [linkAfterLast_eq_append l2 l1]
  simp

/-- Claim C8: on an empty list, `LIST_POP` and `LIST_DROP` leave the list
empty and invoke no cleanup, and `LIST_FIRST`, `LIST_LAST`, `LIST_MAX`,
`LIST_MIN` and `LIST_FIND` all return `none`. -/
theorem C8_empty_graceful (n : Int) (cmp : α → α → Int) (p : α → Bool) :
    LIST_POP ([] : List α) = ([], []) ∧
    LIST_DROP n ([] : List α) = ([], []) ∧
    LIST_FIRST ([] : List α) = none ∧
    LIST_LAST ([] : List α) = none ∧
    LIST_MAX cmp ([] : List α) = none ∧
    LIST_MIN cmp ([] : List α) = none ∧
    LIST_FIND p ([] : List α) = none := by
  refine ⟨rfl, ?_, rfl, rfl, rfl, rfl, rfl⟩
  show dropGo n.toNat ([] : List α) = ([], [])
  cases hn : n.toNat with
  | zero => rfl
  | succ k => rfl

/-- Claim C9 (implicit): the chain produced by `LIST_SORT` is a permutation
of the input chain — the same elements with the same multiplicities, none
dropped or duplicated, again a finite chain. -/
theorem C9_sort_perm (cmp : α → α → Int) (l : List α) :
    (LIST_SORT cmp l).Perm l := by
  match l with
  | [] => simp [LIST_SORT]
  | [a] => simp [LIST_SORT]
  | a :: b :: t =>
    show (sortLoop cmp 0 (a :: b :: t)).Perm (a :: b :: t)
    exact sortLoop_perm cmp 0 _

/-- Claim C10 (implicit): `LIST_POP` writes no link field at all (it only
reassigns the list head), and `LIST_REMOVE` writes only the link field of the
element *before* the removed one; so at the moment the removed element is
handed to the cleanup callback, its own link still references the element
that followed it in the chain (rather than being reset to the NULL sentinel).
The `e ≠ elem` hypothesis is the acyclicity invariant (no self-loop). -/
theorem C10_pop_remove_preserve_link (fst : Option Nat) (nxt : Nat → Option Nat)
    (elem e e' : Nat) :
    ((LIST_POP_links fst nxt).2.1 = nxt) ∧
    ((LIST_POP_links fst nxt).2.2 = some e' →
      (LIST_POP_links fst nxt).2.1 e' = nxt e') ∧
    ((LIST_REMOVE_links elem nxt).2 = some e → e ≠ elem →
      (LIST_REMOVE_links elem nxt).1 e = nxt e) := by
  refine ⟨?_, ?_, ?_⟩
  · cases fst <;> rfl
  · cases fst <;> intro h <;> rfl
  · intro h hne
    cases hx : nxt elem with
    | none =>
      rw [show LIST_REMOVE_links elem nxt = (nxt, none) from
        by simp [LIST_REMOVE_links, hx]] at h
      simp at h
    | some x =>
      have hrw : LIST_REMOVE_links elem nxt =
          (fun k => if k = elem then nxt x else nxt k, some x) := by
        simp [LIST_REMOVE_links, hx]
      rw [hrw] at h ⊢
      simp at h
      subst h
      simp [if_neg hne]

/-- Witness for C10 on the three-node chain `0 → 1 → 2`: after
`LIST_REMOVE_links 0` unlinks node 1, node 1's own link still references
node 2; and `LIST_POP_links` leaves the whole link map unchanged. -/
theorem C10_pop_remove_preserve_link_witness :
    (LIST_POP_links (some 0)
        (fun k => if k = 0 then some 1 else if k = 1 then some 2 else none)).2.1 =
      (fun k => if k = 0 then some 1 else if k = 1 then some 2 else none) ∧
    (LIST_REMOVE_links 0
        (fun k => if k = 0 then some 1 else if k = 1 then some 2 else none)).1 1 =
      (fun k : Nat => if k = 0 then some 1 else if k = 1 then some 2 else none) 1 := by
  have h := C10_pop_remove_preserve_link (some 0)
    (fun k => if k = 0 then some 1 else if k = 1 then some 2 else none) 0 1 1
  exact ⟨h.1, h.2.2 rfl (by decide)⟩

end Slist
